import Mathlib

/-!
Shallow embedding of gemini/gemini.py (class Gemini) from the
cryptocurrency.backtester repository: the simulation driver (Gemini.run),
the performance builder (Gemini.prepare_performance) and the trade
statistics analyzer (Gemini._trades_analyze).

Numbers are modelled as rationals; timestamps as naturals. A pandas NaN is
modelled as Option.none where one can arise (pct_change at index 0,
empyrical max_drawdown of an empty series). The exchange.Account class,
the settings module and the helpers module are not under src/, so the
account position state is kept abstract (a type parameter with abstract
operations), the fee table is a parameter, and the helper percent_change
is modelled from the spec.
-/

namespace Gemini

/- ------------------------------------------------------------------ -/
/- Definitions: trade statistics analyzer (Gemini._trades_analyze)    -/
/- ------------------------------------------------------------------ -/

/-- A closed trade record as consumed by Gemini._trades_analyze: direction
string type_ (either "Long" or "Short"), entry price, exit price, size and
fee (gemini/gemini.py lines 289-290). -/
structure Trade where
  type_ : String
  entry : ℚ
  exit : ℚ
  size : ℚ
  fee : ℚ

/-- Per-trade net profit and loss, from the list comprehension at
gemini/gemini.py line 289: t.exit * t.size - t.fee - t.entry * t.size. -/
def tradePnl (t : Trade) : ℚ :=
  t.exit * t.size - t.fee - t.entry * t.size

/-- Lines 289-290 of gemini/gemini.py: the net pnl of every closed trade
whose direction is a member of the filter list type_. -/
def filteredPnls (closed_trades : List Trade) (type_ : List String) : List ℚ :=
  (closed_trades.filter (fun t => type_.contains t.type_)).map tradePnl

/-- Gemini._trades_analyze (gemini/gemini.py lines 282-316). Returns the
tuple (success_rate, loss_avg, win_avg, ev) exactly as the Python return
statement orders it. np.sum of an empty selection is 0, matching List.sum. -/
def tradesAnalyze (closed_trades : List Trade) (type_ : List String) :
    ℚ × ℚ × ℚ × ℚ :=
  let lst := filteredPnls closed_trades type_
  let pnl_win := (lst.filter (fun x => 0 < x)).sum
  let pnl_loss := (lst.filter (fun x => x < 0)).sum
  let trades_win : ℕ := (lst.filter (fun x => 0 < x)).length
  let trades_loss : ℕ := (lst.filter (fun x => x < 0)).length
  let trades : ℕ := lst.length
  if trades = 0 then (0, 0, 0, 0)
  else
    let win_avg : ℚ := if trades_win = 0 then 0 else pnl_win / (trades_win : ℚ)
    let loss_avg : ℚ := if trades_loss = 0 then 0 else pnl_loss / (trades_loss : ℚ)
    let ev : ℚ := ((trades_win : ℚ) / (trades : ℚ)) * win_avg
      + ((trades_loss : ℚ) / (trades : ℚ)) * loss_avg
    (((trades_win : ℚ) / (trades : ℚ)) * 100, loss_avg, win_avg, ev)

/-- The winning pnls of the filtered trades (pnl strictly positive). -/
def winningPnls (closed_trades : List Trade) (type_ : List String) : List ℚ :=
  (filteredPnls closed_trades type_).filter (fun x => 0 < x)

/-- The losing pnls of the filtered trades (pnl strictly negative). -/
def losingPnls (closed_trades : List Trade) (type_ : List String) : List ℚ :=
  (filteredPnls closed_trades type_).filter (fun x => x < 0)

/-- Number of filtered trades. -/
def totalCount (closed_trades : List Trade) (type_ : List String) : ℕ :=
  (filteredPnls closed_trades type_).length

/-- Number of winning filtered trades. -/
def winCount (closed_trades : List Trade) (type_ : List String) : ℕ :=
  (winningPnls closed_trades type_).length

/-- Number of losing filtered trades. -/
def lossCount (closed_trades : List Trade) (type_ : List String) : ℕ :=
  (losingPnls closed_trades type_).length

/-- Mean pnl of the winning trades, 0 when there are none. -/
def avgWin (closed_trades : List Trade) (type_ : List String) : ℚ :=
  if winCount closed_trades type_ = 0 then 0
  else (winningPnls closed_trades type_).sum / (winCount closed_trades type_ : ℚ)

/-- Mean pnl of the losing trades (keeping the negative sign), 0 when there
are none. -/
def avgLoss (closed_trades : List Trade) (type_ : List String) : ℚ :=
  if lossCount closed_trades type_ = 0 then 0
  else (losingPnls closed_trades type_).sum / (lossCount closed_trades type_ : ℚ)

/-- Success rate in percent: winning count over total count times 100. -/
def successRate (closed_trades : List Trade) (type_ : List String) : ℚ :=
  ((winCount closed_trades type_ : ℚ) / (totalCount closed_trades type_ : ℚ)) * 100

/-- Expected value: win share times average win plus loss share times
average loss. -/
def expectedValue (closed_trades : List Trade) (type_ : List String) : ℚ :=
  ((winCount closed_trades type_ : ℚ) / (totalCount closed_trades type_ : ℚ))
      * avgWin closed_trades type_
    + ((lossCount closed_trades type_ : ℚ) / (totalCount closed_trades type_ : ℚ))
      * avgLoss closed_trades type_

/-- The two-trade scenario of claim C4. -/
def scenarioTrades : List Trade :=
  [{ type_ := "Long", entry := 100, exit := 110, size := 1, fee := 0 },
   { type_ := "Long", entry := 100, exit := 90, size := 1, fee := 0 }]

/- ------------------------------------------------------------------ -/
/- Definitions: simulation parameters (Gemini.__init__)               -/
/- ------------------------------------------------------------------ -/

/-- A value stored in the sim_params dictionary: a number (capital_base), a
frequency string (data_frequency) or a fee table (fee). -/
inductive PVal where
  | num : ℚ → PVal
  | freq : String → PVal
  | fees : List (String × ℚ) → PVal
deriving DecidableEq

/-- The defaults dictionary assigned to self.sim_params in Gemini.__init__
(gemini/gemini.py lines 43-47): capital_base 10e5 (the Python float literal
10e5 equals 1000000), data_frequency "D", and fee the module-level FEES
table. FEES is getattr(settings, "FEES", dict()) and gemini/settings.py is
not under src/, so the fee table is a parameter here. -/
def defaultSimParams (fees : List (String × ℚ)) : List (String × PVal) :=
  [("capital_base", PVal.num 1000000),
   ("data_frequency", PVal.freq "D"),
   ("fee", PVal.fees fees)]

/-- The merge loop of Gemini.__init__ lines 65-69: iterate over the keys of
the defaults and replace only those items that the received mapping also
contains. -/
def mergeSimParams {V : Type} (defaults user : List (String × V)) :
    List (String × V) :=
  defaults.map (fun kv =>
    match List.lookup kv.1 user with
    | some v => (kv.1, v)
    | none => kv)

/-- The effective self.sim_params after Gemini.__init__ merged a received
sim_params mapping into the defaults. -/
def effectiveSimParams (fees : List (String × ℚ))
    (user : List (String × PVal)) : List (String × PVal) :=
  mergeSimParams (defaultSimParams fees) user

/-- The capital_base handed to the account construction in Gemini.run lines
98-101: self.sim_params.get('capital_base', 10e5). -/
def capitalBaseOf (ps : List (String × PVal)) : ℚ :=
  match List.lookup "capital_base" ps with
  | some (PVal.num q) => q
  | _ => 1000000

/- ------------------------------------------------------------------ -/
/- Definitions: the bar loop of Gemini.run                            -/
/- ------------------------------------------------------------------ -/

/-- One row of the resampled series self.data: a timestamp (the index
label) and the OHLC prices of the bar. -/
structure TBar where
  ts : ℕ
  op : ℚ
  hi : ℚ
  lo : ℚ
  close : ℚ
deriving DecidableEq

/-- The pandas label lookup self.data.loc[:index] at gemini/gemini.py line
121: on a monotone index, every row whose timestamp label is at most the
given one (the upper bound is inclusive). -/
def locUpto (data : List TBar) (t : ℕ) : List TBar :=
  data.filter (fun b => b.ts ≤ t)

/-- Modelled from the spec: the account of gemini/exchange.py is not under
src/. Following section 6 of the spec, the account holds the immutable
initial capital, a mutable current date, the equity sample collection
(empty before the loop starts), and the rest of its state (cash,
positions, trades) kept abstract as the type parameter. -/
structure Account (π : Type) where
  initial_capital : ℚ
  date : ℕ
  equity : List (ℕ × ℚ)
  positions : π
deriving DecidableEq

/-- The operations Gemini.run invokes each bar: the strategy callback
logic, and the abstract account operations check_orders, purge_positions
and total_value. logic and check_orders may raise an exception, modelled
by Except, matching the try block of lines 122-127. -/
structure Callbacks (π ε : Type) where
  logic : List TBar → π → Except ε π
  checkOrders : TBar → π → Except ε π
  purgePositions : π → π
  totalValue : π → ℚ → ℚ

/-- Outcome of the bar loop: completed with the final account, or failed
carrying the account at the moment of failure, the exception handed to
logger.exception at line 126, and the exception re-raised at line 127. -/
inductive RunOutcome (π ε : Type) where
  | completed : Account π → RunOutcome π ε
  | failed : Account π → ε → ε → RunOutcome π ε
deriving DecidableEq

/-- The bar cycle of Gemini.run (gemini/gemini.py lines 112-130). data is
the full resampled series, used for the self.data.loc[:index] lookup; the
list argument is the suffix of bars still to process. Each step sets the
account date, appends the equity sample (index, total_value(close)), runs
logic on self.data.loc[:index], then check_orders on the bar, then
purge_positions; an exception from logic or check_orders is logged and
re-raised, ending the loop at once. -/
def runBars {π ε : Type} (cb : Callbacks π ε) (data : List TBar) :
    List TBar → Account π → RunOutcome π ε
  | [], acc => .completed acc
  | bar :: rest, acc =>
    let acc1 : Account π :=
      { acc with
          date := bar.ts,
          equity := acc.equity ++ [(bar.ts, cb.totalValue acc.positions bar.close)] }
    match cb.logic (locUpto data bar.ts) acc1.positions with
    | .error ex => .failed acc1 ex ex
    | .ok p1 =>
      match cb.checkOrders bar p1 with
      | .error ex => .failed { acc1 with positions := p1 } ex ex
      | .ok p2 => runBars cb data rest { acc1 with positions := cb.purgePositions p2 }

/-- Gemini.run up to the end of the loop (lines 98-131): construct a fresh
account (given capital, empty equity collection) and run the bar cycle
over the resampled series. The setup callback runs before the loop and may
prepare arbitrary position state, so the starting position state is a
parameter. -/
def runGemini {π ε : Type} (cb : Callbacks π ε) (capital : ℚ) (p0 : π)
    (data : List TBar) : RunOutcome π ε :=
  runBars cb data data
    { initial_capital := capital, date := 0, equity := [], positions := p0 }

/-- Strategy callbacks that record, in order, the visible history handed to
each logic call; order checks always succeed and purge does nothing. Used
to observe exactly what the loop passes to the strategy. -/
def recorderCallbacks (ε : Type) : Callbacks (List (List TBar)) ε where
  logic := fun hist ps => .ok (ps ++ [hist])
  checkOrders := fun _ p => .ok p
  purgePositions := id
  totalValue := fun _ _ => 0

/-- A strategy that never trades, over a trivial account whose total value
is the current close price. -/
def flatCallbacks : Callbacks Unit Unit where
  logic := fun _ _ => .ok ()
  checkOrders := fun _ _ => .ok ()
  purgePositions := id
  totalValue := fun _ price => price

/-- Callbacks whose strategy logic always raises the exception 7. -/
def failLogicCallbacks : Callbacks Unit ℕ where
  logic := fun _ _ => .error 7
  checkOrders := fun _ p => .ok p
  purgePositions := id
  totalValue := fun _ _ => 0

/-- Callbacks whose order check always raises the exception 9; the purge
operation increments a counter so that an invocation of purge is visible
in the position state. -/
def failOrderCallbacks : Callbacks ℕ ℕ where
  logic := fun _ n => .ok (n + 100)
  checkOrders := fun _ _ => .error 9
  purgePositions := fun n => n + 1
  totalValue := fun _ _ => 0

/-- A concrete 3-bar resampled series with closes 100, 105, 95. -/
def wData : List TBar :=
  [{ ts := 0, op := 100, hi := 100, lo := 100, close := 100 },
   { ts := 1, op := 105, hi := 105, lo := 105, close := 105 },
   { ts := 2, op := 95, hi := 95, lo := 95, close := 95 }]

/-- The account produced by a flat run over wData. -/
def wAccount : Account Unit :=
  { initial_capital := 1000, date := 2,
    equity := [(0, 100), (1, 105), (2, 95)], positions := () }

/- ------------------------------------------------------------------ -/
/- Definitions: performance builder (Gemini.prepare_performance)      -/
/- ------------------------------------------------------------------ -/

/-- pandas Series.pct_change on the tail of a series, given the previous
value: (x - prev) / prev at each position. -/
def pctChangeAux (prev : ℚ) : List ℚ → List (Option ℚ)
  | [] => []
  | y :: rest => some ((y - prev) / prev) :: pctChangeAux y rest

/-- pandas Series.pct_change: position 0 is NaN (none), position i holds
(x_i - x_(i-1)) / x_(i-1). The theorems below only use it on series of
positive values, where the Python floats raise no division issue. -/
def pctChange (xs : List ℚ) : List (Option ℚ) :=
  match xs with
  | [] => []
  | x :: rest => none :: pctChangeAux x rest

/-- empyrical cum_returns with a nonzero starting value, running
accumulator form: each NaN return is replaced by 0, then the accumulator
is multiplied by (1 + r) at every step (np.add then cumprod then the
multiplication by starting_value, fused). -/
def cumReturnsAux (acc : ℚ) : List (Option ℚ) → List ℚ
  | [] => []
  | r :: rest =>
    acc * (1 + r.getD 0) :: cumReturnsAux (acc * (1 + r.getD 0)) rest

/-- Minimum of a list of rationals, 0 on the empty list (only applied to
non-empty lists, where the value matches np.nanmin on NaN-free data). -/
def minD : List ℚ → ℚ
  | [] => 0
  | x :: rest => rest.foldl min x

/-- Maximum of a list of rationals, 0 on the empty list. -/
def maxD : List ℚ → ℚ
  | [] => 0
  | x :: rest => rest.foldl max x

/-- The tail of the empyrical drawdown vector
(cumulative - max_return) / max_return, carrying the running maximum m of
the already-seen values (np.fmax.accumulate). -/
def ddTermsAux (m : ℚ) : List ℚ → List ℚ
  | [] => []
  | v :: rest => (v - max m v) / max m v :: ddTermsAux (max m v) rest

/-- The empyrical drawdown vector of a value series: at each position the
signed fractional distance of the value from the running maximum. -/
def ddTerms : List ℚ → List ℚ
  | [] => []
  | v :: rest => (v - v) / v :: ddTermsAux v rest

/-- The signed maximum drawdown of a value series: the minimum of the
drawdown vector, a nonpositive number for positive series; the negation of
the maximum peak-to-trough fractional decline. -/
def ddSigned (vs : List ℚ) : ℚ :=
  minD (ddTerms vs)

/-- empyrical.max_drawdown (empyrical/stats.py) on a series of returns:
NaN (none) when the series is empty; otherwise prepend the starting value
100 to cum_returns(returns, starting_value=100), take the running maximum,
and return the minimum of (cumulative - max_return) / max_return. -/
def empMaxDrawdown (returns : List (Option ℚ)) : Option ℚ :=
  match returns with
  | [] => none
  | _ :: _ => some (minD (ddTerms ((100 : ℚ) :: cumReturnsAux 100 returns)))

/-- The drawdown column comprehension of Gemini.prepare_performance (lines
154-156 and 166-168): entry i is empyrical max_drawdown of
values[:i].pct_change(), where the Python slice [:i] excludes index i. -/
def maxDrawdownCol (values : List ℚ) : List (Option ℚ) :=
  (List.range values.length).map
    (fun i => empMaxDrawdown (pctChange (values.take i)))

/-- The decline counterpart of ddTermsAux: (max_return - value) / max_return. -/
def declineTermsAux (m : ℚ) : List ℚ → List ℚ
  | [] => []
  | v :: rest => (max m v - v) / max m v :: declineTermsAux (max m v) rest

/-- The nonnegative decline vector of a value series. -/
def declineTerms : List ℚ → List ℚ
  | [] => []
  | v :: rest => (v - v) / v :: declineTermsAux v rest

/-- The maximum peak-to-trough fractional decline of a value series, a
nonnegative number for positive series; 0 on a single value. -/
def ddDecline (vs : List ℚ) : ℚ :=
  maxD (declineTerms vs)

/-- Modelled from the spec: the reading of the drawdown column stated by
claim C2, the maximum peak-to-trough fractional decline within the
INCLUSIVE prefix [0..i] of the value series, with value 0 at i = 0. Named
for comparison with maxDrawdownCol, the column the code computes. -/
def maxDrawdownColClaim (values : List ℚ) : List ℚ :=
  (List.range values.length).map (fun i => ddDecline (values.take (i + 1)))

/-- Modelled from the spec: helpers.percent_change of gemini/helpers is
not under src/; section 4.2 of the spec defines percent-change as
(new - old) / old. -/
def percent_change (old new_ : ℚ) : ℚ :=
  (new_ - old) / old

/-- The columns of the performance table built by
Gemini.prepare_performance. The constant placeholder columns ending_value,
alpha, beta and sharpe (lines 173-176, literal zeros) are omitted. -/
structure Performance where
  price : List ℚ
  base_equity : List ℚ
  equity : List ℚ
  benchmark_period_return : List ℚ
  benchmark_max_drawdown : List (Option ℚ)
  algorithm_period_return : List ℚ
  returns : List (Option ℚ)
  max_drawdown : List (Option ℚ)

/-- Gemini.prepare_performance (gemini/gemini.py lines 138-178): price is
the close column; base_equity is close * (initial_capital / first close);
equity is the second component of the account equity samples; the period
returns compare each entry to entry 0; returns is pct_change of equity;
the two drawdown columns recompute empyrical max_drawdown of the
exclusive-slice pct_change at every index. -/
def preparePerformance (data : List TBar) (initial_capital : ℚ)
    (equityPairs : List (ℕ × ℚ)) : Performance :=
  let closes := data.map TBar.close
  let size := initial_capital / closes.headD 0
  let base_equity := closes.map (fun p => p * size)
  let equity := equityPairs.map Prod.snd
  { price := closes
    base_equity := base_equity
    equity := equity
    benchmark_period_return :=
      (List.range base_equity.length).map
        (fun i => percent_change (base_equity.headD 0) (base_equity.getD i 0))
    benchmark_max_drawdown := maxDrawdownCol base_equity
    algorithm_period_return :=
      (List.range equity.length).map
        (fun i => percent_change (equity.headD 0) (equity.getD i 0))
    returns := pctChange equity
    max_drawdown := maxDrawdownCol equity }

/-- Gemini.run in full (lines 98-136): the bar cycle followed by
prepare_performance on the resulting account; a failed cycle propagates
the re-raised exception and builds no performance table. The results and
analyze callbacks only report and are omitted. -/
def runPerformance {π ε : Type} (cb : Callbacks π ε) (capital : ℚ) (p0 : π)
    (data : List TBar) : Except ε Performance :=
  match runGemini cb capital p0 data with
  | .completed acc => .ok (preparePerformance data acc.initial_capital acc.equity)
  | .failed _ _ raised => .error raised

/-- The 2-bar series of the C2 counterexample, closes 100 and 90. -/
def ddData : List TBar :=
  [{ ts := 0, op := 100, hi := 100, lo := 100, close := 100 },
   { ts := 1, op := 90, hi := 90, lo := 90, close := 90 }]

/-- Equity samples of the C2 counterexample run: 100 then 90. -/
def ddPairs : List (ℕ × ℚ) :=
  [(0, 100), (1, 90)]

/- ------------------------------------------------------------------ -/
/- Theorems                                                           -/
/- ------------------------------------------------------------------ -/

lemma length_filter_pos_add_neg_add_zero (l : List ℚ) :
    (l.filter (fun x => 0 < x)).length + (l.filter (fun x => x < 0)).length
      + (l.filter (fun x => x = 0)).length = l.length := by
  induction l with
  | nil => simp
  | cons a t ih =>
    rcases lt_trichotomy (0 : ℚ) a with h | h | h
    · have h1 : ¬ a < 0 := by linarith
      have h2 : ¬ a = 0 := by intro hc; rw [hc] at h; exact lt_irrefl 0 h
      simp [List.filter_cons, h, h1, h2]
      omega
    · have h1 : ¬ 0 < a := by rw [← h]; exact lt_irrefl 0
      have h2 : ¬ a < 0 := by rw [← h]; exact lt_irrefl 0
      have h3 : a = 0 := h.symm
      simp [List.filter_cons, h1, h2, h3]
      omega
    · have h1 : ¬ 0 < a := by linarith
      have h2 : ¬ a = 0 := by intro hc; rw [hc] at h; exact lt_irrefl 0 h
      simp [List.filter_cons, h, h1, h2]
      omega

/-- C4: on a non-empty filtered trade set, Gemini._trades_analyze returns
the tuple (success_rate, avg_loss, avg_win, expected_value) with
success_rate = winning count over total count times 100, the averages the
respective means (avg_loss keeping its negative sign), and expected_value
the count-weighted combination; trades with pnl equal to 0 count toward
the total only: winning, losing and zero-pnl trades partition the total. -/
theorem C4_trades_analyze_formulas (closed_trades : List Trade)
    (type_ : List String) (h : filteredPnls closed_trades type_ ≠ []) :
    tradesAnalyze closed_trades type_ =
      (successRate closed_trades type_, avgLoss closed_trades type_,
        avgWin closed_trades type_, expectedValue closed_trades type_) ∧
    winCount closed_trades type_ + lossCount closed_trades type_
      + ((filteredPnls closed_trades type_).filter (fun x => x = 0)).length
      = totalCount closed_trades type_ := by
  constructor
  · have hne : (filteredPnls closed_trades type_).length ≠ 0 := by
      simpa [List.length_eq_zero] using h
    simp only [tradesAnalyze, successRate, avgLoss, avgWin, expectedValue,
      winCount, lossCount, totalCount, winningPnls, losingPnls, hne,
      if_false, ite_false]
  · exact length_filter_pos_add_neg_add_zero _

/-- C4 witness: on the concrete scenario of the claim, the analyzer returns
success_rate 50, avg_loss -10, avg_win 10 and expected_value 0. -/
theorem C4_trades_analyze_formulas_witness :
    filteredPnls scenarioTrades ["Long", "Short"] ≠ [] ∧
    tradesAnalyze scenarioTrades ["Long", "Short"] = (50, -10, 10, 0) := by
  have hval : filteredPnls scenarioTrades ["Long", "Short"] = [10, -10] := by
    norm_num [filteredPnls, scenarioTrades, tradePnl]
  have hne : filteredPnls scenarioTrades ["Long", "Short"] ≠ [] := by
    rw [hval]; simp
  refine ⟨hne, ?_⟩
  have h := (C4_trades_analyze_formulas scenarioTrades ["Long", "Short"] hne).1
  refine h.trans ?_
  norm_num [successRate, avgLoss, avgWin, expectedValue, winCount, lossCount,
    totalCount, winningPnls, losingPnls, filteredPnls, scenarioTrades, tradePnl]

/-- C7: when the filtered closed-trade set is empty, Gemini._trades_analyze
returns exactly (0, 0, 0, 0), for every direction filter: a defined result,
not an error. -/
theorem C7_empty_trades (closed_trades : List Trade) (type_ : List String)
    (h : filteredPnls closed_trades type_ = []) :
    tradesAnalyze closed_trades type_ = (0, 0, 0, 0) := by
  simp [tradesAnalyze, h]

/-- C7 witness: the empty closed-trade collection with the full direction
filter yields (0, 0, 0, 0). -/
theorem C7_empty_trades_witness :
    filteredPnls [] ["Long", "Short"] = [] ∧
    tradesAnalyze [] ["Long", "Short"] = (0, 0, 0, 0) :=
  ⟨rfl, C7_empty_trades [] ["Long", "Short"] rfl⟩

lemma fst_mergeSimParams {V : Type} (defaults user : List (String × V)) :
    (mergeSimParams defaults user).map Prod.fst = defaults.map Prod.fst := by
  induction defaults with
  | nil => rfl
  | cons kv rest ih =>
    simp only [mergeSimParams, List.map_cons] at ih ⊢
    cases h : List.lookup kv.1 user <;> simp [h, ih]

lemma lookup_mergeSimParams {V : Type} (defaults user : List (String × V))
    (k : String) (v₀ : V) (h : List.lookup k defaults = some v₀) :
    List.lookup k (mergeSimParams defaults user)
      = some ((List.lookup k user).getD v₀) := by
  induction defaults with
  | nil => simp [List.lookup] at h
  | cons kv rest ih =>
    obtain ⟨a, b⟩ := kv
    simp only [mergeSimParams, List.map_cons] at ih ⊢
    cases hk : (k == a) with
    | true =>
      have hka : k = a := eq_of_beq hk
      subst hka
      simp only [List.lookup, hk] at h
      cases h
      cases hu : List.lookup k user with
      | some v => simp [List.lookup, hu, hk]
      | none => simp [List.lookup, hu, hk]
    | false =>
      simp only [List.lookup, hk] at h
      cases hu : List.lookup a user with
      | some v =>
        simp only [List.lookup, hu, hk]
        exact ih h
      | none =>
        simp only [List.lookup, hu, hk]
        exact ih h

/-- C8 counterexample: with no sim_params mapping received, the
capital_base handed to the account construction is 1000000 (the Python
float literal 10e5), which is not 100000. -/
theorem C8_counterexample :
    capitalBaseOf (defaultSimParams []) = 1000000 ∧
    capitalBaseOf (defaultSimParams []) ≠ 100000 := by
  refine ⟨rfl, ?_⟩
  intro hc
  have : (1000000 : ℚ) = 100000 := hc
  norm_num at this

/-- C8 amended: when no sim_params mapping is supplied, or the supplied
mapping has no capital_base key, the capital_base used to construct the
account is 1000000 (the Python literal 10e5), for every fee table. -/
theorem C8_default_capital_base (fees : List (String × ℚ))
    (user : List (String × PVal))
    (h : List.lookup "capital_base" user = none) :
    capitalBaseOf (effectiveSimParams fees user) = 1000000 ∧
    capitalBaseOf (defaultSimParams fees) = 1000000 := by
  have hd : List.lookup "capital_base" (defaultSimParams fees)
      = some (PVal.num 1000000) := rfl
  have hm := lookup_mergeSimParams (defaultSimParams fees) user
    "capital_base" (PVal.num 1000000) hd
  rw [h] at hm
  constructor
  · unfold capitalBaseOf effectiveSimParams
    rw [hm]
    rfl
  · unfold capitalBaseOf
    rw [hd]

/-- C8 amended witness: a mapping without a capital_base key leaves the
account capital at 1000000. -/
theorem C8_default_capital_base_witness :
    List.lookup "capital_base" [("junk", PVal.num 5)] = none ∧
    capitalBaseOf (effectiveSimParams [] [("junk", PVal.num 5)]) = 1000000 :=
  ⟨by decide, (C8_default_capital_base [] [("junk", PVal.num 5)] (by decide)).1⟩

/-- C9: the merge in Gemini.__init__ keeps exactly the recognized keys
capital_base, data_frequency and fee: an unrecognized key of the received
mapping never appears in the effective configuration; a recognized key
present in the received mapping takes the received value; a recognized key
absent from the received mapping keeps its default value. -/
theorem C9_sim_params_merge (fees : List (String × ℚ))
    (user : List (String × PVal)) :
    ((effectiveSimParams fees user).map Prod.fst
        = ["capital_base", "data_frequency", "fee"]) ∧
    (∀ k v₀ v, List.lookup k (defaultSimParams fees) = some v₀ →
      List.lookup k user = some v →
      List.lookup k (effectiveSimParams fees user) = some v) ∧
    (∀ k v₀, List.lookup k (defaultSimParams fees) = some v₀ →
      List.lookup k user = none →
      List.lookup k (effectiveSimParams fees user) = some v₀) := by
  refine ⟨(fst_mergeSimParams _ _).trans rfl, ?_, ?_⟩
  · intro k v₀ v h hu
    unfold effectiveSimParams
    rw [lookup_mergeSimParams _ _ _ _ h, hu]
    rfl
  · intro k v₀ h hu
    unfold effectiveSimParams
    rw [lookup_mergeSimParams _ _ _ _ h, hu]
    rfl

/-- C9 witness: merging a mapping that overrides capital_base and carries
an unrecognized key junk: the override lands, data_frequency keeps its
default, and junk is absent from the effective configuration. -/
theorem C9_sim_params_merge_witness :
    List.lookup "capital_base"
        (effectiveSimParams [] [("capital_base", PVal.num 5), ("junk", PVal.num 7)])
      = some (PVal.num 5) ∧
    List.lookup "data_frequency"
        (effectiveSimParams [] [("capital_base", PVal.num 5), ("junk", PVal.num 7)])
      = some (PVal.freq "D") ∧
    List.lookup "junk"
        (effectiveSimParams [] [("capital_base", PVal.num 5), ("junk", PVal.num 7)])
      = none := by
  refine ⟨?_, ?_, by decide⟩
  · exact (C9_sim_params_merge [] [("capital_base", PVal.num 5), ("junk", PVal.num 7)]).2.1
      "capital_base" (PVal.num 1000000) (PVal.num 5) (by decide) (by decide)
  · exact (C9_sim_params_merge [] [("capital_base", PVal.num 5), ("junk", PVal.num 7)]).2.2
      "data_frequency" (PVal.freq "D") (by decide) (by decide)

lemma locUpto_of_sorted (data : List TBar)
    (hsort : List.Pairwise (fun a b => a.ts < b.ts) data) :
    ∀ (i : ℕ) (bar : TBar), data[i]? = some bar →
      locUpto data bar.ts = data.take (i + 1) := by
  induction data with
  | nil => intro i bar h; simp at h
  | cons b rest ih =>
    intro i bar h
    rcases List.pairwise_cons.mp hsort with ⟨hb, hrest⟩
    cases i with
    | zero =>
      simp only [List.getElem?_cons_zero] at h
      cases h
      simp only [locUpto, List.take_succ_cons, List.take_zero]
      rw [List.filter_cons_of_pos (by simp)]
      have hnil : rest.filter (fun x => decide (x.ts ≤ b.ts)) = [] := by
        rw [List.filter_eq_nil_iff]
        intro a ha
        have := hb a ha
        simp only [decide_eq_true_eq]
        omega
      rw [hnil]
    | succ n =>
      simp only [List.getElem?_cons_succ] at h
      have hbar : bar ∈ rest := List.getElem?_mem h
      have hlt : b.ts < bar.ts := hb bar hbar
      simp only [locUpto, List.take_succ_cons]
      rw [List.filter_cons_of_pos (by simp; omega)]
      have hih := ih hrest n bar h
      unfold locUpto at hih
      rw [hih]

lemma getLast_take (data : List TBar) :
    ∀ (i : ℕ) (bar : TBar), data[i]? = some bar →
      (data.take (i + 1)).getLast? = some bar := by
  induction data with
  | nil => intro i bar h; simp at h
  | cons b rest ih =>
    intro i bar h
    cases i with
    | zero =>
      simp only [List.getElem?_cons_zero] at h
      cases h
      simp [List.take_succ_cons]
    | succ n =>
      simp only [List.getElem?_cons_succ] at h
      have hih := ih n bar h
      rw [List.take_succ_cons]
      cases hr : rest.take (n + 1) with
      | nil =>
        exfalso
        have hlen : n < rest.length := (List.getElem?_eq_some_iff.mp h).1
        have hl2 : (rest.take (n + 1)).length = 0 := by rw [hr]; rfl
        rw [List.length_take] at hl2
        omega
      | cons c l =>
        rw [hr] at hih
        rw [List.getLast?_cons_cons]
        exact hih

lemma runBars_recorder {ε : Type} (data : List TBar) :
    ∀ (bars : List TBar) (acc : Account (List (List TBar))),
      ∃ acc', runBars (recorderCallbacks ε) data bars acc = .completed acc' ∧
        acc'.positions = acc.positions ++ bars.map (fun b => locUpto data b.ts) := by
  intro bars
  induction bars with
  | nil => intro acc; exact ⟨acc, rfl, by simp⟩
  | cons bar rest ih =>
    intro acc
    obtain ⟨acc', hrun, hpos⟩ := ih
      { acc with
          date := bar.ts,
          equity := acc.equity ++ [(bar.ts, 0)],
          positions := acc.positions ++ [locUpto data bar.ts] }
    refine ⟨acc', ?_, ?_⟩
    · exact hrun
    · rw [hpos]
      simp

/-- C1: causality. On a resampled series with strictly increasing
timestamps, the pandas lookup self.data.loc[:index] that Gemini.run hands
to the strategy at the bar of index i is exactly the prefix of the series
up to and including index i: its last row is bar i and no row in it has a
timestamp greater than that of bar i; accordingly a recording strategy
pushed through the loop receives precisely the ascending chain of
inclusive prefixes, one per bar. -/
theorem C1_causality (data : List TBar)
    (hsort : List.Pairwise (fun a b => a.ts < b.ts) data) :
    (∀ (i : ℕ) (bar : TBar), data[i]? = some bar →
      locUpto data bar.ts = data.take (i + 1) ∧
      (locUpto data bar.ts).getLast? = some bar ∧
      ∀ b ∈ locUpto data bar.ts, b.ts ≤ bar.ts) ∧
    ∀ (ε : Type) (capital : ℚ), ∃ acc,
      runGemini (recorderCallbacks ε) capital [] data = .completed acc ∧
      acc.positions = (List.range data.length).map (fun i => data.take (i + 1)) := by
  constructor
  · intro i bar h
    have h1 := locUpto_of_sorted data hsort i bar h
    refine ⟨h1, ?_, ?_⟩
    · rw [h1]
      exact getLast_take data i bar h
    · intro b hb
      have hmem := (List.mem_filter.mp hb).2
      simpa using hmem
  · intro ε capital
    obtain ⟨acc, hrun, hpos⟩ := runBars_recorder data data
      { initial_capital := capital, date := 0, equity := [], positions := [] }
    refine ⟨acc, hrun, ?_⟩
    rw [hpos]
    simp only [List.nil_append]
    apply List.ext_getElem?
    intro n
    by_cases hn : n < data.length
    · cases hbar : data[n]? with
      | none =>
        rw [List.getElem?_eq_none_iff] at hbar
        omega
      | some bar =>
        rw [List.getElem?_map, List.getElem?_map, List.getElem?_range hn, hbar]
        simp only [Option.map]
        rw [locUpto_of_sorted data hsort n bar hbar]
    · have h1 : data.length ≤ n := le_of_not_lt hn
      rw [List.getElem?_map, List.getElem?_map]
      rw [List.getElem?_eq_none h1, List.getElem?_eq_none (by simpa using h1)]
      rfl

/-- C1 witness: on the concrete sorted 3-bar series, the visible history
at the bar of index 1 is the 2-bar inclusive prefix, and the recording run
collects exactly the three inclusive prefixes. -/
theorem C1_causality_witness :
    List.Pairwise (fun a b => a.ts < b.ts) wData ∧
    locUpto wData 1 = wData.take 2 ∧
    (∃ acc, runGemini (recorderCallbacks Unit) 1000 [] wData = .completed acc ∧
      acc.positions = (List.range wData.length).map (fun i => wData.take (i + 1))) := by
  have hsort : List.Pairwise (fun (a b : TBar) => a.ts < b.ts) wData := by decide
  have h := C1_causality wData hsort
  refine ⟨hsort, ?_, h.2 Unit 1000⟩
  exact (h.1 1 { ts := 1, op := 105, hi := 105, lo := 105, close := 105 }
    (by decide)).1

lemma runBars_failed_logged {π ε : Type} (cb : Callbacks π ε)
    (data : List TBar) :
    ∀ (bars : List TBar) (acc a : Account π) (l r : ε),
      runBars cb data bars acc = .failed a l r → l = r := by
  intro bars
  induction bars with
  | nil =>
    intro acc a l r h
    simp [runBars] at h
  | cons bar rest ih =>
    intro acc a l r h
    simp only [runBars] at h
    split at h
    · injection h with h1 h2 h3
      exact h2.symm.trans h3
    · split at h
      · injection h with h1 h2 h3
        exact h2.symm.trans h3
      · exact ih _ _ _ _ h

/-- C5: an exception raised by the strategy logic at any bar is logged and
re-raised unchanged, aborting the run at once: the loop returns failed
with the logged and the raised exception both equal to the one logic
raised, the remaining bars are never processed, and a run that fails
yields exactly the raised exception as its error result, with no
performance table built. -/
theorem C5_strategy_exception {π ε : Type} (cb : Callbacks π ε)
    (data rest : List TBar) (bar : TBar) (acc : Account π) (e : ε)
    (hl : cb.logic (locUpto data bar.ts) acc.positions = .error e) :
    runBars cb data (bar :: rest) acc =
      .failed { acc with
          date := bar.ts,
          equity := acc.equity ++ [(bar.ts, cb.totalValue acc.positions bar.close)] }
        e e ∧
    ∀ (capital : ℚ) (p0 : π) (a : Account π) (l r : ε),
      runGemini cb capital p0 data = .failed a l r →
      l = r ∧ runPerformance cb capital p0 data = .error r := by
  constructor
  · simp [runBars, hl]
  · intro capital p0 a l r h
    refine ⟨runBars_failed_logged cb data data _ a l r h, ?_⟩
    unfold runPerformance
    rw [h]

/-- C5 witness: a strategy whose logic raises the exception 7 at the very
first bar makes the loop fail at once with logged and raised exception
both 7 and only the first equity sample recorded. -/
theorem C5_strategy_exception_witness :
    failLogicCallbacks.logic (locUpto wData 0) () = .error 7 ∧
    runBars failLogicCallbacks wData wData
        { initial_capital := 1000, date := 0, equity := [], positions := () } =
      .failed { initial_capital := 1000, date := 0, equity := [(0, 0)], positions := () } 7 7 :=
  ⟨rfl,
    (C5_strategy_exception failLogicCallbacks wData
      [{ ts := 1, op := 105, hi := 105, lo := 105, close := 105 },
       { ts := 2, op := 95, hi := 95, lo := 95, close := 95 }]
      { ts := 0, op := 100, hi := 100, lo := 100, close := 100 }
      { initial_capital := 1000, date := 0, equity := [], positions := () }
      7 rfl).1⟩

/-- C10: an exception raised by the order check of the account receives
the same treatment as a strategy exception: the loop returns failed with
logged and raised exception both equal to the order-check exception, and
the position state inside the failed account is exactly the output of
logic, the purge operation never having been applied for that bar. -/
theorem C10_order_check_exception {π ε : Type} (cb : Callbacks π ε)
    (data rest : List TBar) (bar : TBar) (acc : Account π) (e : ε) (p1 : π)
    (hl : cb.logic (locUpto data bar.ts) acc.positions = .ok p1)
    (ho : cb.checkOrders bar p1 = .error e) :
    runBars cb data (bar :: rest) acc =
      .failed { acc with
          date := bar.ts,
          equity := acc.equity ++ [(bar.ts, cb.totalValue acc.positions bar.close)],
          positions := p1 }
        e e := by
  simp [runBars, hl, ho]

/-- C10 witness: with logic adding 100 to a counter, an order check that
raises 9, and a purge that increments the counter, the failed account
holds counter 100: purge was not applied at the failing bar. -/
theorem C10_order_check_exception_witness :
    failOrderCallbacks.logic (locUpto wData 0) 0 = .ok 100 ∧
    failOrderCallbacks.checkOrders
      { ts := 0, op := 100, hi := 100, lo := 100, close := 100 } 100 = .error 9 ∧
    runBars failOrderCallbacks wData wData
        { initial_capital := 1000, date := 0, equity := [], positions := 0 } =
      .failed { initial_capital := 1000, date := 0, equity := [(0, 0)], positions := 100 } 9 9 :=
  ⟨rfl, rfl,
    C10_order_check_exception failOrderCallbacks wData
      [{ ts := 1, op := 105, hi := 105, lo := 105, close := 105 },
       { ts := 2, op := 95, hi := 95, lo := 95, close := 95 }]
      { ts := 0, op := 100, hi := 100, lo := 100, close := 100 }
      { initial_capital := 1000, date := 0, equity := [], positions := 0 }
      9 100 rfl rfl⟩

lemma runBars_completed_equity {π ε : Type} (cb : Callbacks π ε)
    (data : List TBar) :
    ∀ (bars : List TBar) (acc acc' : Account π),
      runBars cb data bars acc = .completed acc' →
      ∃ samples : List (ℕ × ℚ),
        acc'.equity = acc.equity ++ samples ∧
        samples.map Prod.fst = bars.map TBar.ts ∧
        ∀ (k : ℕ) (bar : TBar), bars[k]? = some bar →
          ∃ p : π, samples[k]? = some (bar.ts, cb.totalValue p bar.close) := by
  intro bars
  induction bars with
  | nil =>
    intro acc acc' h
    simp only [runBars] at h
    injection h with h1
    subst h1
    refine ⟨[], by simp, by simp, ?_⟩
    intro k bar hk
    simp at hk
  | cons bar rest ih =>
    intro acc acc' h
    simp only [runBars] at h
    split at h
    · cases h
    · split at h
      · cases h
      · obtain ⟨samples, he, hts, hval⟩ := ih _ _ h
        refine ⟨(bar.ts, cb.totalValue acc.positions bar.close) :: samples,
          ?_, ?_, ?_⟩
        · rw [he]
          simp
        · simp [hts]
        · intro k b hk
          cases k with
          | zero =>
            simp only [List.getElem?_cons_zero] at hk
            cases hk
            exact ⟨acc.positions, by simp⟩
          | succ n =>
            simp only [List.getElem?_cons_succ] at hk
            obtain ⟨p, hp⟩ := hval n b hk
            exact ⟨p, by simpa using hp⟩

/-- C6: after a run that completes over the resampled series, the account
equity collection holds exactly one sample per bar, appended in bar order:
the k-th sample timestamp equals the k-th bar timestamp, and the k-th
sample value is the account total value at the close price of bar k, taken
at the position state the account held entering that bar. -/
theorem C6_equity_alignment {π ε : Type} (cb : Callbacks π ε) (capital : ℚ)
    (p0 : π) (data : List TBar) (acc : Account π)
    (h : runGemini cb capital p0 data = .completed acc) :
    acc.equity.length = data.length ∧
    acc.equity.map Prod.fst = data.map TBar.ts ∧
    ∀ (k : ℕ) (bar : TBar), data[k]? = some bar →
      ∃ p : π, acc.equity[k]? = some (bar.ts, cb.totalValue p bar.close) := by
  obtain ⟨samples, he, hts, hval⟩ := runBars_completed_equity cb data data _ acc h
  have he' : acc.equity = samples := by simpa using he
  have hmap : acc.equity.map Prod.fst = data.map TBar.ts := by rw [he']; exact hts
  refine ⟨?_, hmap, ?_⟩
  · have := congrArg List.length hmap
    simpa using this
  · intro k bar hk
    rw [he']
    exact hval k bar hk

/-- C6 witness: the flat strategy over the 3-bar series completes with
three equity samples whose timestamps are exactly the bar timestamps. -/
theorem C6_equity_alignment_witness :
    runGemini flatCallbacks 1000 () wData = .completed wAccount ∧
    wAccount.equity.map Prod.fst = wData.map TBar.ts ∧
    wAccount.equity.length = wData.length := by
  have hrun : runGemini flatCallbacks 1000 () wData = .completed wAccount := by
    decide
  have h := C6_equity_alignment flatCallbacks 1000 () wData wAccount hrun
  exact ⟨hrun, h.2.1, h.1⟩

lemma foldl_min_le (l : List ℚ) : ∀ a : ℚ, l.foldl min a ≤ a := by
  induction l with
  | nil => intro a; exact le_refl a
  | cons x t ih =>
    intro a
    calc (x :: t).foldl min a = t.foldl min (min a x) := rfl
    _ ≤ min a x := ih (min a x)
    _ ≤ a := min_le_left a x

lemma minD_le_head (x : ℚ) (l : List ℚ) : minD (x :: l) ≤ x :=
  foldl_min_le l x

lemma minD_nonpos (l : List ℚ) (h : ∀ t ∈ l, t ≤ 0) : minD l ≤ 0 := by
  cases l with
  | nil => exact le_refl 0
  | cons x t =>
    exact le_trans (minD_le_head x t) (h x (by simp))

lemma minD_append_single (x : ℚ) (l : List ℚ) (y : ℚ) :
    minD ((x :: l) ++ [y]) = min (minD (x :: l)) y := by
  show (l ++ [y]).foldl min x = min (l.foldl min x) y
  rw [List.foldl_append]
  rfl

lemma ddTermsAux_append (xs : List ℚ) : ∀ (m x : ℚ),
    ddTermsAux m (xs ++ [x]) =
      ddTermsAux m xs ++
        [(x - max (xs.foldl max m) x) / max (xs.foldl max m) x] := by
  induction xs with
  | nil => intro m x; rfl
  | cons v t ih =>
    intro m x
    show (v - max m v) / max m v :: ddTermsAux (max m v) (t ++ [x]) = _
    rw [ih (max m v) x]
    rfl

lemma ddSigned_append_le (v : ℚ) (l : List ℚ) (x : ℚ) :
    ddSigned ((v :: l) ++ [x]) ≤ ddSigned (v :: l) := by
  unfold ddSigned
  have h1 : ddTerms ((v :: l) ++ [x])
      = ((v - v) / v :: ddTermsAux v l) ++
        [(x - max (l.foldl max v) x) / max (l.foldl max v) x] := by
    show (v - v) / v :: ddTermsAux v (l ++ [x]) = _
    rw [ddTermsAux_append l v x]
    rfl
  rw [h1, minD_append_single]
  show min (minD (ddTerms (v :: l))) _ ≤ minD (ddTerms (v :: l))
  exact min_le_left _ _

lemma ddTermsAux_nonpos (xs : List ℚ) : ∀ m : ℚ, 0 < m →
    (∀ v ∈ xs, 0 < v) → ∀ t ∈ ddTermsAux m xs, t ≤ 0 := by
  induction xs with
  | nil => intro m _ _ t ht; simp [ddTermsAux] at ht
  | cons v rest ih =>
    intro m hm hpos t ht
    have hmax : 0 < max m v := lt_max_of_lt_left hm
    simp only [ddTermsAux, List.mem_cons] at ht
    rcases ht with ht | ht
    · rw [ht]
      refine div_nonpos_iff.mpr (Or.inr ⟨?_, le_of_lt hmax⟩)
      exact sub_nonpos.mpr (le_max_right m v)
    · exact ih (max m v) hmax (fun w hw => hpos w (by simp [hw])) t ht

lemma ddSigned_nonpos (vs : List ℚ) (h : ∀ v ∈ vs, 0 < v) :
    ddSigned vs ≤ 0 := by
  cases vs with
  | nil => exact le_refl 0
  | cons v l =>
    have hv : 0 < v := h v (by simp)
    have hhead : (v - v) / v = 0 := by rw [sub_self, zero_div]
    calc ddSigned (v :: l) = minD ((v - v) / v :: ddTermsAux v l) := rfl
    _ ≤ (v - v) / v := minD_le_head _ _
    _ = 0 := hhead

lemma cumReturnsAux_pctChangeAux (rest : List ℚ) : ∀ (prev acc : ℚ),
    prev ≠ 0 → (∀ e ∈ rest, e ≠ 0) →
    cumReturnsAux acc (pctChangeAux prev rest)
      = rest.map (fun e => acc / prev * e) := by
  induction rest with
  | nil => intro prev acc _ _; rfl
  | cons e t ih =>
    intro prev acc hprev hall
    have he : e ≠ 0 := hall e (by simp)
    have hval : acc * (1 + (e - prev) / prev) = acc / prev * e := by
      field_simp
    show acc * (1 + (e - prev) / prev)
        :: cumReturnsAux (acc * (1 + (e - prev) / prev)) (pctChangeAux e t) = _
    rw [hval, ih e (acc / prev * e) he (fun w hw => hall w (by simp [hw]))]
    have harg : acc / prev * e / e = acc / prev := by
      field_simp
      ring
    simp only [List.map_cons, harg]

lemma ddTermsAux_scale (xs : List ℚ) : ∀ (m c : ℚ), 0 < c →
    ddTermsAux (c * m) (xs.map (fun v => c * v)) = ddTermsAux m xs := by
  induction xs with
  | nil => intro m c _; rfl
  | cons v t ih =>
    intro m c hc
    have hmax : max (c * m) (c * v) = c * max m v :=
      (mul_max_of_nonneg m v (le_of_lt hc)).symm
    show (c * v - max (c * m) (c * v)) / max (c * m) (c * v)
        :: ddTermsAux (max (c * m) (c * v)) (t.map (fun v => c * v)) = _
    rw [hmax]
    have hterm : (c * v - c * max m v) / (c * max m v)
        = (v - max m v) / max m v := by
      rw [← mul_sub, mul_div_mul_left _ _ (ne_of_gt hc)]
    rw [hterm, ih (max m v) c hc]
    rfl

lemma ddSigned_scale (c : ℚ) (hc : 0 < c) (vs : List ℚ) :
    ddSigned (vs.map (fun v => c * v)) = ddSigned vs := by
  cases vs with
  | nil => rfl
  | cons v l =>
    unfold ddSigned
    show minD ((c * v - c * v) / (c * v) :: ddTermsAux (c * v) (l.map (fun v => c * v)))
        = minD ((v - v) / v :: ddTermsAux v l)
    rw [ddTermsAux_scale l v c hc, sub_self, zero_div, sub_self, zero_div]

lemma ddSigned_cons_self (v : ℚ) (l : List ℚ) :
    ddSigned (v :: v :: l) = ddSigned (v :: l) := by
  unfold ddSigned
  show minD ((v - v) / v :: (v - max v v) / max v v :: ddTermsAux (max v v) l)
      = minD ((v - v) / v :: ddTermsAux v l)
  rw [max_self, sub_self, zero_div]
  show List.foldl min 0 ((0 : ℚ) :: ddTermsAux v l)
      = List.foldl min 0 (ddTermsAux v l)
  show List.foldl min (min 0 0) (ddTermsAux v l) = _
  rw [min_self]

lemma empMaxDrawdown_pctChange (es : List ℚ) (hne : es ≠ [])
    (hpos : ∀ e ∈ es, 0 < e) :
    empMaxDrawdown (pctChange es) = some (ddSigned es) := by
  obtain ⟨e0, rest, rfl⟩ : ∃ a l, es = a :: l := by
    cases es with
    | nil => exact absurd rfl hne
    | cons a l => exact ⟨a, l, rfl⟩
  have he0 : 0 < e0 := hpos e0 (by simp)
  have he0' : e0 ≠ 0 := ne_of_gt he0
  have hrest : ∀ e ∈ rest, e ≠ 0 := fun e he =>
    ne_of_gt (hpos e (by simp [he]))
  have hcum : cumReturnsAux 100 (none :: pctChangeAux e0 rest)
      = 100 :: rest.map (fun e => (100 : ℚ) / e0 * e) := by
    show (100 : ℚ) * (1 + Option.getD none 0)
        :: cumReturnsAux ((100 : ℚ) * (1 + Option.getD none 0)) (pctChangeAux e0 rest) = _
    have h100 : (100 : ℚ) * (1 + Option.getD none 0) = 100 := by norm_num
    rw [h100, cumReturnsAux_pctChangeAux rest e0 100 he0' hrest]
  have hmain : empMaxDrawdown (pctChange (e0 :: rest))
      = some (ddSigned ((100 : ℚ) :: 100 :: rest.map (fun e => (100 : ℚ) / e0 * e))) := by
    show some (minD (ddTerms ((100 : ℚ) :: cumReturnsAux 100 (none :: pctChangeAux e0 rest)))) = _
    rw [hcum]
    rfl
  have hformf : (100 : ℚ) :: 100 :: rest.map (fun e => (100 : ℚ) / e0 * e)
      = (e0 :: e0 :: rest).map (fun v => (100 : ℚ) / e0 * v) := by
    have h1 : (100 : ℚ) / e0 * e0 = 100 := div_mul_cancel₀ 100 he0'
    simp [h1]
  have hcpos : (0 : ℚ) < 100 / e0 := by positivity
  rw [hmain, hformf, ddSigned_scale _ hcpos, ddSigned_cons_self]

lemma maxDrawdownCol_getElem (values : List ℚ) (i : ℕ) (h : i < values.length) :
    (maxDrawdownCol values)[i]? = some (empMaxDrawdown (pctChange (values.take i))) := by
  unfold maxDrawdownCol
  rw [List.getElem?_map, List.getElem?_range h]
  rfl

lemma emp_mdd_single : empMaxDrawdown (pctChange [(100 : ℚ)]) = some 0 := by
  norm_num [empMaxDrawdown, pctChange, pctChangeAux, cumReturnsAux, ddTerms,
    ddTermsAux, minD, max_def, min_def]

lemma emp_mdd_pair : empMaxDrawdown (pctChange [(100 : ℚ), 90]) = some (-(1/10)) := by
  norm_num [empMaxDrawdown, pctChange, pctChangeAux, cumReturnsAux, ddTerms,
    ddTermsAux, minD, max_def, min_def]

/-- C2 counterexample: for the 2-bar performance table with closes 100 and
90, capital 100 and equity samples 100 then 90, the max_drawdown column
the code computes is [NaN, 0], while the claim calls for the
inclusive-prefix declines [0, 1/10]: the entry at index 0 is NaN rather
than 0, and the entry at index 1 is 0 under either sign convention rather
than the decline 1/10 of the inclusive prefix [100, 90], because the
Python slice [:1] drops bar 1. -/
theorem C2_counterexample :
    (preparePerformance ddData 100 ddPairs).max_drawdown = [none, some 0] ∧
    maxDrawdownColClaim [100, 90] = [0, 1/10] ∧
    (preparePerformance ddData 100 ddPairs).max_drawdown
      ≠ (maxDrawdownColClaim [100, 90]).map some ∧
    (none : Option ℚ) ≠ some 0 ∧
    (some (0 : ℚ) : Option ℚ) ≠ some (1/10) ∧
    (some (0 : ℚ) : Option ℚ) ≠ some (-(1/10)) := by
  have hstep : (preparePerformance ddData 100 ddPairs).max_drawdown
      = [empMaxDrawdown (pctChange ([] : List ℚ)),
         empMaxDrawdown (pctChange [(100 : ℚ)])] := rfl
  have hcol : (preparePerformance ddData 100 ddPairs).max_drawdown
      = [none, some 0] := by
    rw [hstep, emp_mdd_single]
    rfl
  have hclaim : maxDrawdownColClaim [100, 90] = [0, 1/10] := by
    have hc0 : ddDecline [(100 : ℚ)] = 0 := by
      norm_num [ddDecline, declineTerms, declineTermsAux, maxD]
    have hc1 : ddDecline [(100 : ℚ), 90] = 1/10 := by
      norm_num [ddDecline, declineTerms, declineTermsAux, maxD, max_def, min_def]
    have hstep2 : maxDrawdownColClaim [100, 90]
        = [ddDecline [(100 : ℚ)], ddDecline [(100 : ℚ), 90]] := rfl
    rw [hstep2, hc0, hc1]
  refine ⟨hcol, hclaim, ?_, by simp, ?_, ?_⟩
  · rw [hcol, hclaim]
    intro hc
    have := List.head_eq_of_cons_eq hc
    simp at this
  · intro hc
    have : (0 : ℚ) = 1/10 := Option.some.inj hc
    norm_num at this
  · intro hc
    have : (0 : ℚ) = -(1/10) := Option.some.inj hc
    norm_num at this

/-- C2 amended: in the performance table, benchmark_max_drawdown[i] and
max_drawdown[i] are empyrical max_drawdown applied to the pct_change of
the EXCLUSIVE prefix [0..i-1] of the respective equity series: at i = 0
the prefix is empty and the value is NaN, not 0; for i at least 1 the
value equals the signed drawdown of the prefix [0..i-1], the minimum over
j < i of (v_j - max of v_0..v_j) / (max of v_0..v_j), a nonpositive
number equal to the negation of the maximum peak-to-trough fractional
decline over that exclusive prefix. -/
theorem C2_drawdown_cols (es : List ℚ) (hpos : ∀ e ∈ es, 0 < e) :
    (es ≠ [] → (maxDrawdownCol es)[0]? = some none) ∧
    (∀ i, 1 ≤ i → i < es.length →
      (maxDrawdownCol es)[i]? = some (some (ddSigned (es.take i)))) ∧
    ∀ (data : List TBar) (capital : ℚ) (eqPairs : List (ℕ × ℚ)),
      (preparePerformance data capital eqPairs).max_drawdown
          = maxDrawdownCol (eqPairs.map Prod.snd) ∧
      (preparePerformance data capital eqPairs).benchmark_max_drawdown
          = maxDrawdownCol ((data.map TBar.close).map
              (fun p => p * (capital / ((data.map TBar.close).headD 0)))) := by
  refine ⟨?_, ?_, ?_⟩
  · intro hne
    have hlen : 0 < es.length := List.length_pos.mpr hne
    rw [maxDrawdownCol_getElem es 0 hlen]
    rfl
  · intro i h1 h2
    rw [maxDrawdownCol_getElem es i h2]
    congr 1
    apply empMaxDrawdown_pctChange
    · intro hc
      have hlen : min i es.length = 0 := by
        rw [← List.length_take, hc]
        rfl
      omega
    · intro e he
      exact hpos e (List.take_subset _ _ he)
  · intro data capital eqPairs
    exact ⟨rfl, rfl⟩

/-- C2 amended witness: on the positive equity series [100, 90, 80] the
drawdown entry at index 2 is the signed drawdown of the exclusive prefix
[100, 90], and the entry at index 0 is NaN. -/
theorem C2_drawdown_cols_witness :
    (∀ e ∈ [(100 : ℚ), 90, 80], 0 < e) ∧
    (maxDrawdownCol [(100 : ℚ), 90, 80])[2]? = some (some (ddSigned [100, 90])) ∧
    (maxDrawdownCol [(100 : ℚ), 90, 80])[0]? = some none := by
  have hpos : ∀ e ∈ [(100 : ℚ), 90, 80], 0 < e := by norm_num
  have h := C2_drawdown_cols [(100 : ℚ), 90, 80] hpos
  refine ⟨hpos, ?_, h.1 (by simp)⟩
  exact h.2.1 2 (by norm_num) (by norm_num)

/-- C3 counterexample: on the positive equity series [100, 90, 80] the
max_drawdown column holds 0 at index 1 and -1/10 at index 2: the value
-1/10 is negative, refuting nonnegativity, and the step from 0 down to
-1/10 refutes the claim that the series never decreases. -/
theorem C3_counterexample :
    (maxDrawdownCol [(100 : ℚ), 90, 80])[1]? = some (some (0 : ℚ)) ∧
    (maxDrawdownCol [(100 : ℚ), 90, 80])[2]? = some (some (-(1/10) : ℚ)) ∧
    ¬ ((0 : ℚ) ≤ -(1/10)) ∧ (-(1/10) : ℚ) < (0 : ℚ) := by
  refine ⟨?_, ?_, by norm_num, by norm_num⟩
  · rw [maxDrawdownCol_getElem _ 1 (by norm_num)]
    rw [show ([(100 : ℚ), 90, 80].take 1) = [100] from rfl, emp_mdd_single]
  · rw [maxDrawdownCol_getElem _ 2 (by norm_num)]
    rw [show ([(100 : ℚ), 90, 80].take 2) = [100, 90] from rfl, emp_mdd_pair]

/-- C3 amended: over a positive equity series the defined entries of the
max_drawdown column (indices 1 and upward; index 0 is NaN) are
nonpositive and non-increasing: the value computed on the prefix for
index i+1 is never greater than the value computed for index i. -/
theorem C3_drawdown_monotone (es : List ℚ) (hpos : ∀ e ∈ es, 0 < e) :
    ∀ i, 1 ≤ i → i + 1 < es.length →
      ∃ a b : ℚ, (maxDrawdownCol es)[i]? = some (some a) ∧
        (maxDrawdownCol es)[i + 1]? = some (some b) ∧ a ≤ 0 ∧ b ≤ a := by
  intro i h1 h2
  have hposTake : ∀ (n : ℕ), ∀ e ∈ es.take n, 0 < e := fun n e he =>
    hpos e (List.take_subset _ _ he)
  have hne : ∀ n, 1 ≤ n → n ≤ es.length → es.take n ≠ [] := by
    intro n hn1 hn2 hc
    have hlen : min n es.length = 0 := by
      rw [← List.length_take, hc]
      rfl
    omega
  refine ⟨ddSigned (es.take i), ddSigned (es.take (i + 1)), ?_, ?_, ?_, ?_⟩
  · rw [maxDrawdownCol_getElem es i (by omega)]
    congr 1
    exact empMaxDrawdown_pctChange _ (hne i h1 (by omega)) (hposTake i)
  · rw [maxDrawdownCol_getElem es (i + 1) h2]
    congr 1
    exact empMaxDrawdown_pctChange _ (hne (i + 1) (by omega) (by omega)) (hposTake (i + 1))
  · exact ddSigned_nonpos _ (hposTake i)
  · have hi : i < es.length := by omega
    cases hbar : es[i]? with
    | none =>
      rw [List.getElem?_eq_none_iff] at hbar
      omega
    | some x =>
      have htake : es.take (i + 1) = es.take i ++ [x] := by
        rw [List.take_succ, hbar]
        rfl
      rw [htake]
      cases hti : es.take i with
      | nil => exact absurd hti (hne i h1 (by omega))
      | cons v l =>
        exact ddSigned_append_le v l x

/-- C3 amended witness: on the positive series [100, 90, 80], at index 1
the column holds a value a and at index 2 a value b with a nonpositive and
b at most a. -/
theorem C3_drawdown_monotone_witness :
    (∀ e ∈ [(100 : ℚ), 90, 80], 0 < e) ∧
    ∃ a b : ℚ, (maxDrawdownCol [(100 : ℚ), 90, 80])[1]? = some (some a) ∧
      (maxDrawdownCol [(100 : ℚ), 90, 80])[2]? = some (some b) ∧ a ≤ 0 ∧ b ≤ a := by
  have hpos : ∀ e ∈ [(100 : ℚ), 90, 80], 0 < e := by norm_num
  exact ⟨hpos, C3_drawdown_monotone [(100 : ℚ), 90, 80] hpos 1 (by norm_num) (by norm_num)⟩

end Gemini
